import Mathlib

/-!
# transproxy: the expiring cache and the delayed-broadcast scheduler

A shallow embedding of `cache/cache.go`, `proxy/types.go` and `proxy/proxy.go`.

Modelling conventions.

* Instants and durations are integers (nanoseconds). Every function that reads
  `time.Now()` in the source takes the clock reading as an explicit argument.
* A Go `map[K]T` is an association list `List (K × T)` whose keys are pairwise
  distinct (`cache.WF`). The position of an entry in the list stands for the
  unspecified iteration order of the Go map: the theorems are stated for every
  well-formed list, hence for every iteration order.
* The mutex is not modelled: every operation is one atomic step.
* The functions of go-ethereum (`common.FromHex`, `UnmarshalBinary`, the signer,
  `Hash`) and the injected `EthClient` are parameters.
-/

namespace cache

/-! ## Go map primitives -/

/-- The lookup `m[k]` of a Go map: the entry stored under `k`, if any. -/
def mapGet {K T : Type} [DecidableEq K] : List (K × T) → K → Option T
  | [], _ => none
  | (k', x) :: m, k => if k' = k then some x else mapGet m k

/-- The builtin `delete(m, k)`. -/
def mapDelete {K T : Type} [DecidableEq K] (m : List (K × T)) (k : K) : List (K × T) :=
  m.filter (fun e => decide (e.1 ≠ k))

/-- The assignment `m[k] = x`: insert or overwrite. -/
def mapSet {K T : Type} [DecidableEq K] (m : List (K × T)) (k : K) (x : T) : List (K × T) :=
  mapDelete m k ++ [(k, x)]

/-- The keys of a Go map are pairwise distinct. -/
def WF {K T : Type} (m : List (K × T)) : Prop :=
  (m.map Prod.fst).Nodup

instance {K T : Type} [DecidableEq K] (m : List (K × T)) : Decidable (WF m) :=
  inferInstanceAs (Decidable (m.map Prod.fst).Nodup)

/-! ## cache/cache.go -/

/-- The struct `item[V]`: a value and an absolute expiry instant. -/
structure item (V : Type) where
  value : V
  expiry : Int
deriving DecidableEq, Repr

/-- The zero value of `item[V]`, which `c.items[key]` yields on a miss. -/
def zeroItem {V : Type} [Inhabited V] : item V :=
  { value := default, expiry := 0 }

/-- The method `item.isExpired`: `time.Now().After(i.expiry)`, `now` being the clock reading. -/
def item.isExpired {V : Type} (now : Int) (i : item V) : Bool :=
  decide (i.expiry < now)

/-- The struct `Cache[K, V]`: its table `items`. -/
abbrev Cache (K V : Type) : Type := List (K × item V)

/-- The table built by `New`: empty. (The goroutine it starts is `reaperCycle`, run on each tick.) -/
def New {K V : Type} : Cache K V := []

/-- One iteration of the reaper goroutine of `New`, at clock reading `now`:
range over the entries and delete every one that `isExpired`. -/
def reaperCycle {K V : Type} [DecidableEq K] (now : Int) (c : Cache K V) : Cache K V :=
  c.foldl (fun m e => if e.2.isExpired now then mapDelete m e.1 else m) c

/-- The method `Cache.Set`, at clock reading `now`. -/
def Set {K V : Type} [DecidableEq K] (now : Int) (c : Cache K V) (key : K) (value : V)
    (ttl : Int) : Cache K V :=
  mapSet c key { value := value, expiry := now + ttl }

/-- The method `Cache.Get`, at clock reading `now`: the returned pair and the table afterwards. -/
def Get {K V : Type} [DecidableEq K] [Inhabited V] (now : Int) (c : Cache K V) (key : K) :
    (V × Bool) × Cache K V :=
  match mapGet c key with
  | none => ((zeroItem.value, false), c)
  | some i =>
    if i.isExpired now then ((i.value, false), mapDelete c key)
    else ((i.value, true), c)

/-- The method `Cache.Remove`. -/
def Remove {K V : Type} [DecidableEq K] (c : Cache K V) (key : K) : Cache K V :=
  mapDelete c key

/-- The method `Cache.Values`: a fresh map filled with `values[key] = item.value`. -/
def Values {K V : Type} [DecidableEq K] (c : Cache K V) : List (K × V) :=
  c.foldl (fun values e => mapSet values e.1 e.2.value) []

/-- The method `Cache.Clear`. -/
def Clear {K V : Type} (_c : Cache K V) : Cache K V := []

/-- The operations a client (or the reaper) can perform on a cache. -/
inductive Op (K V : Type) where
  | set (key : K) (value : V) (ttl : Int)
  | get (key : K)
  | remove (key : K)
  | values
  | clear
  | sweep
deriving Repr

/-- Whether an operation is a `Set`, `Remove` or `Clear` touching `k`. -/
def Op.touches {K V : Type} [DecidableEq K] (k : K) : Op K V → Bool
  | .set key _ _ => decide (key = k)
  | .remove key => decide (key = k)
  | .clear => true
  | _ => false

/-- The table after one operation performed at clock reading `now`. -/
def step {K V : Type} [DecidableEq K] [Inhabited V] (c : Cache K V) (o : Int × Op K V) :
    Cache K V :=
  match o.2 with
  | .set key value ttl => Set o.1 c key value ttl
  | .get key => (Get o.1 c key).2
  | .remove key => Remove c key
  | .values => c
  | .clear => Clear c
  | .sweep => reaperCycle o.1 c

/-- The table after a sequence of timed operations. -/
def run {K V : Type} [DecidableEq K] [Inhabited V] (c : Cache K V) (ops : List (Int × Op K V)) :
    Cache K V :=
  ops.foldl step c

end cache

namespace proxy

open cache

/-! ## The go-ethereum types and functions used by the proxy -/

/-- What the proxy observes of a `types.Transaction`: its nonce (a `uint64`), its declared
gas price (a `*big.Int`) and the rest of its content. -/
structure Transaction where
  nonce : Nat
  gasPrice : Int
  payload : Nat
deriving DecidableEq, Repr

/-- The zero value `types.Transaction{}`. -/
instance : Inhabited Transaction := ⟨{ nonce := 0, gasPrice := 0, payload := 0 }⟩

/-- The go-ethereum functions the proxy calls. -/
structure EthLib where
  /-- The function `common.FromHex`. -/
  FromHex : String → List Nat
  /-- The method `(*types.Transaction).UnmarshalBinary`: the transaction, or an error. -/
  UnmarshalBinary : List Nat → Except String Transaction
  /-- The method `types.NewEIP155Signer(tx.ChainId()).Sender(tx)`: the address, or an error. -/
  Sender : Transaction → Except String Nat
  /-- The method `common.Address.Hex`. -/
  Hex : Nat → String
  /-- The method `types.Transaction.Hash`, as a number; `common.Hash{}` is `0`. -/
  Hash : Transaction → Nat

/-- The part of the interface `EthClient` the scheduler uses: `SendTransaction` returns an
error (`some`) or `nil` (`none`). -/
structure EthClient where
  SendTransaction : Transaction → Option String

/-! ## proxy/types.go -/

/-- The method `RawTransaction.Decode`. -/
def Decode (lib : EthLib) (r : String) : Transaction × Option String :=
  let txBytes := lib.FromHex r
  match lib.UnmarshalBinary txBytes with
  | .error err => (default, some err)
  | .ok tx => (tx, none)

/-! ## proxy/proxy.go -/

/-- The struct `Proxy`, with the list `sent` of the transactions passed to
`ethClient.SendTransaction` so far, in call order. -/
structure Proxy where
  ethClient : EthClient
  txCache : Cache String Transaction
  maxWaitTime : Int
  sent : List Transaction

/-- The function `NewProxy`. -/
def NewProxy (ethClient : EthClient) (txCache : Cache String Transaction) (maxWaitTime : Int) :
    Proxy :=
  { ethClient := ethClient, txCache := txCache, maxWaitTime := maxWaitTime, sent := [] }

/-- The key `fmt.Sprintf("%s|%d", senderAcc, tx.Nonce())`. -/
def scheduleID (senderAcc : String) (nonce : Nat) : String :=
  senderAcc ++ "|" ++ Nat.repr nonce

/-- The method `Proxy.scheduleTransaction`; `nowGet` and `nowSet` are the clock readings of
its `Get` and of its `Set`. Returns the error (always `nil`) and the proxy afterwards. -/
def scheduleTransaction (p : Proxy) (nowGet nowSet : Int) (tx : Transaction)
    (senderAcc : String) : Option String × Proxy :=
  let scheduleID := scheduleID senderAcc tx.nonce
  let r := Get nowGet p.txCache scheduleID
  if r.1.2 then
    (none, { p with txCache := Remove r.2 scheduleID })
  else
    (none, { p with txCache := Set nowSet r.2 scheduleID tx p.maxWaitTime })

/-- The method `Proxy.readSenderAccount`. -/
def readSenderAccount (lib : EthLib) (tx : Transaction) : String × Option String :=
  match lib.Sender tx with
  | .error err => ("", some err)
  | .ok sender => (lib.Hex sender, none)

/-- The method `Proxy.SendRawTransaction`: the returned hash and error, and the proxy
afterwards. -/
def SendRawTransaction (lib : EthLib) (p : Proxy) (nowGet nowSet : Int) (txData : String) :
    (Nat × Option String) × Proxy :=
  match Decode lib txData with
  | (_, some err) => ((0, some err), p)
  | (tx, none) =>
    match readSenderAccount lib tx with
    | (_, some err) => ((0, some err), p)
    | (senderAcc, none) =>
      match scheduleTransaction p nowGet nowSet tx senderAcc with
      | (some err, p1) => ((0, some err), p1)
      | (none, p1) => ((lib.Hash tx, none), p1)

/-- The body of the loop of `Proxy.OnGasPriceChange`, over the entries of the snapshot. -/
def OnGasPriceChangeLoop (gasPrice : Int) : List (String × Transaction) → Proxy → Proxy
  | [], p => p
  | (key, tx) :: rest, p =>
    if tx.gasPrice ≥ gasPrice then
      let _err := p.ethClient.SendTransaction tx
      OnGasPriceChangeLoop gasPrice rest
        { p with sent := p.sent ++ [tx], txCache := Remove p.txCache key }
    else
      OnGasPriceChangeLoop gasPrice rest p

/-- The method `Proxy.OnGasPriceChange`. -/
def OnGasPriceChange (p : Proxy) (gasPrice : Int) : Proxy :=
  OnGasPriceChangeLoop gasPrice (Values p.txCache) p

end proxy

namespace proxy

open cache

/-- The number read back from a list of decimal digit characters. -/
def digitsVal (l : List Char) : Nat :=
  l.foldl (fun a c => 10 * a + (c.toNat - 48)) 0

/-! ## Sample data -/

/-- A broadcaster whose `SendTransaction` always succeeds. -/
def okClient : EthClient :=
  { SendTransaction := fun _ => none }

/-- A broadcaster whose `SendTransaction` always fails. -/
def failingClient : EthClient :=
  { SendTransaction := fun _ => some "connection refused" }

/-- A transaction with nonce 1 and declared gas price 100. -/
def tx100 : Transaction :=
  { nonce := 1, gasPrice := 100, payload := 0 }

/-- Three pending entries with declared gas prices 100, 99 and 101, all expiring at 1000. -/
def samplePending : Cache String Transaction :=
  [("0xABC|1", { value := { nonce := 1, gasPrice := 100, payload := 0 }, expiry := 1000 }),
   ("0xDEF|2", { value := { nonce := 2, gasPrice := 99, payload := 0 }, expiry := 1000 }),
   ("0xDEF|3", { value := { nonce := 3, gasPrice := 101, payload := 0 }, expiry := 1000 })]

/-- A toy library: the bytes are the character codes, a transaction is decoded from a
non-empty input (nonce = number of bytes), and the signature check fails on nonce 3. -/
def sampleLib : EthLib :=
  { FromHex := fun r => r.data.map Char.toNat
    UnmarshalBinary := fun bs =>
      if bs = [] then .error "typed transaction too short"
      else .ok { nonce := bs.length, gasPrice := 100, payload := bs.sum }
    Sender := fun tx => if tx.nonce = 3 then .error "invalid chain id for signer" else .ok 7
    Hex := fun _ => "0xABC"
    Hash := fun tx => 1000 + tx.payload }

end proxy

namespace cache

/-! ## Facts about the map primitives -/

theorem mapGet_eq_none_iff {K T : Type} [DecidableEq K] (m : List (K × T)) (k : K) :
    mapGet m k = none ↔ ∀ e ∈ m, e.1 ≠ k := by
  induction m with
  | nil => simp [mapGet]
  | cons e m ih =>
    obtain ⟨k1, x⟩ := e
    by_cases h : k1 = k
    · simp [mapGet, h]
    · simp [mapGet, h, ih]

theorem mapGet_mem {K T : Type} [DecidableEq K] (m : List (K × T)) (k : K) (x : T)
    (h : mapGet m k = some x) : (k, x) ∈ m := by
  induction m with
  | nil => simp [mapGet] at h
  | cons e m ih =>
    obtain ⟨k1, y⟩ := e
    by_cases hk : k1 = k
    · simp [mapGet, hk] at h
      simp [hk, h]
    · simp [mapGet, hk] at h
      exact List.mem_cons_of_mem _ (ih h)

theorem WF_key_unique {K T : Type} (m : List (K × T)) (hwf : WF m) (e1 e2 : K × T)
    (h1 : e1 ∈ m) (h2 : e2 ∈ m) (hk : e1.1 = e2.1) : e1 = e2 :=
  List.inj_on_of_nodup_map hwf h1 h2 hk

theorem mapGet_of_mem {K T : Type} [DecidableEq K] (m : List (K × T)) (hwf : WF m) (k : K)
    (x : T) (h : (k, x) ∈ m) : mapGet m k = some x := by
  cases hg : mapGet m k with
  | none => exact absurd rfl ((mapGet_eq_none_iff m k).1 hg (k, x) h)
  | some y =>
    have := WF_key_unique m hwf (k, y) (k, x) (mapGet_mem m k y hg) h rfl
    simp only [Prod.mk.injEq, true_and] at this
    rw [this]

theorem WF_filter {K T : Type} (m : List (K × T)) (q : K × T → Bool) (hwf : WF m) :
    WF (m.filter q) :=
  List.Nodup.sublist (List.Sublist.map Prod.fst (List.filter_sublist m)) hwf

theorem WF_mapDelete {K T : Type} [DecidableEq K] (m : List (K × T)) (k : K) (hwf : WF m) :
    WF (mapDelete m k) :=
  WF_filter m _ hwf

theorem mapDelete_of_absent {K T : Type} [DecidableEq K] (m : List (K × T)) (k : K)
    (h : ∀ e ∈ m, e.1 ≠ k) : mapDelete m k = m := by
  unfold mapDelete
  rw [List.filter_eq_self]
  intro e he
  simpa using h e he

theorem mapGet_filter {K T : Type} [DecidableEq K] (m : List (K × T)) (hwf : WF m)
    (q : K × T → Bool) (k : K) :
    mapGet (m.filter q) k = (mapGet m k).filter (fun x => q (k, x)) := by
  cases hg : mapGet m k with
  | none =>
    rw [mapGet_eq_none_iff] at hg
    simp only [Option.filter]
    rw [mapGet_eq_none_iff]
    intro e he
    exact hg e (List.mem_of_mem_filter he)
  | some x =>
    have hmem := mapGet_mem m k x hg
    by_cases hq : q (k, x) = true
    · simp only [Option.filter, hq, if_true]
      exact mapGet_of_mem _ (WF_filter m q hwf) k x (List.mem_filter.2 ⟨hmem, hq⟩)
    · simp only [Option.filter, hq, Bool.false_eq_true, if_false]
      rw [mapGet_eq_none_iff]
      intro e he hk
      have he2 := List.mem_filter.1 he
      have := WF_key_unique m hwf e (k, x) he2.1 hmem hk
      rw [this] at he2
      exact hq he2.2

theorem mapGet_mapDelete_self {K T : Type} [DecidableEq K] (m : List (K × T)) (k : K) :
    mapGet (mapDelete m k) k = none := by
  rw [mapGet_eq_none_iff]
  intro e he
  simpa [mapDelete] using (List.mem_filter.1 he).2

theorem mapGet_mapDelete_ne {K T : Type} [DecidableEq K] (m : List (K × T)) (k k1 : K)
    (h : k1 ≠ k) : mapGet (mapDelete m k) k1 = mapGet m k1 := by
  induction m with
  | nil => rfl
  | cons e m ih =>
    obtain ⟨k2, x⟩ := e
    by_cases h2 : k2 = k
    · subst h2
      have h3 : ¬ k2 = k1 := fun h4 => h h4.symm
      have hd : mapDelete ((k2, x) :: m) k2 = mapDelete m k2 := by
        simp [mapDelete, List.filter_cons]
      rw [hd, ih]
      simp [mapGet, h3]
    · have hd : mapDelete ((k2, x) :: m) k = (k2, x) :: mapDelete m k := by
        simp [mapDelete, List.filter_cons, h2]
      rw [hd]
      simp only [mapGet]
      rw [ih]

theorem mapGet_append {K T : Type} [DecidableEq K] (m m1 : List (K × T)) (k : K) :
    mapGet (m ++ m1) k = (mapGet m k).orElse (fun _ => mapGet m1 k) := by
  induction m with
  | nil => simp [mapGet]
  | cons e m ih =>
    obtain ⟨k2, x⟩ := e
    by_cases h : k2 = k
    · simp [mapGet, h]
    · simp [mapGet, h, ih]

theorem mapGet_mapSet_self {K T : Type} [DecidableEq K] (m : List (K × T)) (k : K) (x : T) :
    mapGet (mapSet m k x) k = some x := by
  simp [mapSet, mapGet_append, mapGet_mapDelete_self, mapGet]

theorem mapGet_mapSet_ne {K T : Type} [DecidableEq K] (m : List (K × T)) (k k1 : K) (x : T)
    (h : k1 ≠ k) : mapGet (mapSet m k x) k1 = mapGet m k1 := by
  have h2 : ¬ k = k1 := fun h3 => h h3.symm
  cases hg : mapGet m k1 <;>
    simp [mapSet, mapGet_append, mapGet_mapDelete_ne m k k1 h, mapGet, h2, hg]

theorem WF_mapSet {K T : Type} [DecidableEq K] (m : List (K × T)) (k : K) (x : T)
    (hwf : WF m) : WF (mapSet m k x) := by
  unfold mapSet WF
  rw [List.map_append, List.nodup_append]
  refine ⟨WF_mapDelete m k hwf, by simp, ?_⟩
  intro a ha hb
  simp only [List.map_cons, List.map_nil, List.mem_singleton] at hb
  obtain ⟨e, he, rfl⟩ := List.mem_map.1 ha
  have := (List.mem_filter.1 he).2
  simp [hb] at this

/-! ## The reaper and the snapshot as list operations -/

theorem reaper_foldl {K V : Type} [DecidableEq K] (now : Int) (l m : Cache K V) :
    l.foldl (fun m e => if e.2.isExpired now then mapDelete m e.1 else m) m
      = m.filter (fun e => !(l.any (fun e1 => e1.2.isExpired now && decide (e1.1 = e.1)))) := by
  induction l generalizing m with
  | nil => simp
  | cons e1 l ih =>
    simp only [List.foldl_cons]
    rw [ih]
    by_cases hx : e1.2.isExpired now = true
    · simp only [hx, if_true, mapDelete, List.filter_filter]
      apply List.filter_congr
      intro e _
      by_cases hk : e1.1 = e.1
      · simp [hx, hk]
      · have hk2 : ¬ e.1 = e1.1 := fun h => hk h.symm
        simp [hx, hk, hk2]
    · simp [hx]

theorem reaperCycle_eq_filter {K V : Type} [DecidableEq K] (now : Int) (c : Cache K V)
    (hwf : WF c) : reaperCycle now c = c.filter (fun e => !(e.2.isExpired now)) := by
  unfold reaperCycle
  rw [reaper_foldl]
  apply List.filter_congr
  intro e he
  congr 1
  rw [Bool.eq_iff_iff, List.any_eq_true]
  constructor
  · rintro ⟨e1, he1, h⟩
    simp only [Bool.and_eq_true, decide_eq_true_eq] at h
    rw [← WF_key_unique c hwf e1 e he1 he h.2]
    exact h.1
  · intro h
    exact ⟨e, he, by simp [h]⟩

theorem values_foldl {K V : Type} [DecidableEq K] (l : Cache K V) (acc : List (K × V))
    (hwf : WF l) (hacc : ∀ e ∈ l, ∀ a ∈ acc, a.1 ≠ e.1) :
    l.foldl (fun values e => mapSet values e.1 e.2.value) acc
      = acc ++ l.map (fun e => (e.1, e.2.value)) := by
  induction l generalizing acc with
  | nil => simp
  | cons e l ih =>
    have hwf2 : (l.map Prod.fst).Nodup ∧ e.1 ∉ l.map Prod.fst := by
      have := hwf
      unfold WF at this
      rw [List.map_cons, List.nodup_cons] at this
      exact ⟨this.2, this.1⟩
    simp only [List.foldl_cons, List.map_cons]
    have hset : mapSet acc e.1 e.2.value = acc ++ [(e.1, e.2.value)] := by
      unfold mapSet
      rw [mapDelete_of_absent acc e.1 (fun a ha => hacc e (List.mem_cons_self _ _) a ha)]
    rw [hset, ih (acc ++ [(e.1, e.2.value)]) hwf2.1]
    · simp
    · intro e2 he2 a ha
      rcases List.mem_append.1 ha with ha | ha
      · exact hacc e2 (List.mem_cons_of_mem _ he2) a ha
      · simp only [List.mem_singleton] at ha
        rw [ha]
        intro heq
        exact hwf2.2 (List.mem_map.2 ⟨e2, he2, heq.symm⟩)

theorem Values_eq_map {K V : Type} [DecidableEq K] (c : Cache K V) (hwf : WF c) :
    Values c = c.map (fun e => (e.1, e.2.value)) := by
  unfold Values
  rw [values_foldl c [] hwf (fun _ _ a ha => absurd ha (List.not_mem_nil a))]
  simp

/-! ## Operations preserve the distinctness of keys and frame the other keys -/

theorem WF_Get {K V : Type} [DecidableEq K] [Inhabited V] (now : Int) (c : Cache K V) (key : K)
    (hwf : WF c) : WF (Get now c key).2 := by
  unfold Get
  cases mapGet c key with
  | none => exact hwf
  | some i =>
    by_cases hx : i.isExpired now = true
    · simp only [hx, if_true]
      exact WF_mapDelete c key hwf
    · simp only [hx, Bool.false_eq_true, if_false]
      exact hwf

theorem WF_reaperCycle {K V : Type} [DecidableEq K] (now : Int) (c : Cache K V) (hwf : WF c) :
    WF (reaperCycle now c) := by
  rw [reaperCycle_eq_filter now c hwf]
  exact WF_filter c _ hwf

theorem WF_step {K V : Type} [DecidableEq K] [Inhabited V] (c : Cache K V) (o : Int × Op K V)
    (hwf : WF c) : WF (step c o) := by
  obtain ⟨now, op⟩ := o
  cases op with
  | set key value ttl => exact WF_mapSet c key _ hwf
  | get key => exact WF_Get now c key hwf
  | remove key => exact WF_mapDelete c key hwf
  | values => exact hwf
  | clear => exact List.nodup_nil
  | sweep => exact WF_reaperCycle now c hwf

theorem mapGet_Get_table {K V : Type} [DecidableEq K] [Inhabited V] (now : Int) (c : Cache K V)
    (key k : K) :
    mapGet (Get now c key).2 k
      = if key = k then (mapGet c k).filter (fun i => !(i.isExpired now)) else mapGet c k := by
  unfold Get
  by_cases hk : key = k
  · subst hk
    cases hg : mapGet c key with
    | none => simp [hg, Option.filter]
    | some i =>
      by_cases hx : i.isExpired now = true
      · simp [hx, Option.filter, mapGet_mapDelete_self]
      · simp [hx, Option.filter, hg]
  · simp only [hk, if_false]
    cases mapGet c key with
    | none => rfl
    | some i =>
      by_cases hx : i.isExpired now = true
      · simp only [hx, if_true]
        exact mapGet_mapDelete_ne c key k (fun h => hk h.symm)
      · simp [hx]

theorem step_keeps_entry {K V : Type} [DecidableEq K] [Inhabited V] (c : Cache K V)
    (o : Int × Op K V) (hwf : WF c) (k : K) (i : item V) (t1 : Int)
    (hop : o.2.touches k = false) (ht : o.1 ≤ t1) (hlive : t1 ≤ i.expiry)
    (hg : mapGet c k = some i) : mapGet (step c o) k = some i := by
  obtain ⟨now, op⟩ := o
  have hnx : i.isExpired now = false := by
    simp only [item.isExpired, decide_eq_false_iff_not, not_lt]
    exact le_trans ht hlive
  cases op with
  | set key value ttl =>
    have hk : k ≠ key := by
      intro h
      simp [Op.touches, h] at hop
    show mapGet (mapSet c key _) k = some i
    rw [mapGet_mapSet_ne c key k _ hk, hg]
  | get key =>
    show mapGet (Get now c key).2 k = some i
    rw [mapGet_Get_table, hg]
    simp [Option.filter, hnx]
  | remove key =>
    have hk : k ≠ key := by
      intro h
      simp [Op.touches, h] at hop
    show mapGet (mapDelete c key) k = some i
    rw [mapGet_mapDelete_ne c key k hk, hg]
  | values => exact hg
  | clear => simp [Op.touches] at hop
  | sweep =>
    show mapGet (reaperCycle now c) k = some i
    rw [reaperCycle_eq_filter now c hwf, mapGet_filter c hwf, hg]
    simp [Option.filter, hnx]

theorem step_no_new_entry {K V : Type} [DecidableEq K] [Inhabited V] (c : Cache K V)
    (o : Int × Op K V) (hwf : WF c) (k : K) (hop : o.2.touches k = false) :
    mapGet (step c o) k = none ∨ mapGet (step c o) k = mapGet c k := by
  obtain ⟨now, op⟩ := o
  cases op with
  | set key value ttl =>
    have hk : k ≠ key := by
      intro h
      simp [Op.touches, h] at hop
    exact Or.inr (mapGet_mapSet_ne c key k _ hk)
  | get key =>
    show mapGet (Get now c key).2 k = none ∨ mapGet (Get now c key).2 k = mapGet c k
    rw [mapGet_Get_table]
    by_cases hk : key = k
    · simp only [hk, if_true]
      cases mapGet c k with
      | none => simp [Option.filter]
      | some i => by_cases hx : i.isExpired now = true <;> simp [Option.filter, hx]
    · simp [hk]
  | remove key =>
    have hk : k ≠ key := by
      intro h
      simp [Op.touches, h] at hop
    exact Or.inr (mapGet_mapDelete_ne c key k hk)
  | values => exact Or.inr rfl
  | clear => simp [Op.touches] at hop
  | sweep =>
    show mapGet (reaperCycle now c) k = none ∨ mapGet (reaperCycle now c) k = mapGet c k
    rw [reaperCycle_eq_filter now c hwf, mapGet_filter c hwf]
    cases mapGet c k with
    | none => simp [Option.filter]
    | some i => by_cases hx : i.isExpired now = true <;> simp [Option.filter, hx]

theorem run_keeps_entry {K V : Type} [DecidableEq K] [Inhabited V]
    (ops : List (Int × Op K V)) (c : Cache K V) (hwf : WF c) (k : K) (i : item V) (t1 : Int)
    (hops : ∀ o ∈ ops, o.2.touches k = false) (ht : ∀ o ∈ ops, o.1 ≤ t1)
    (hlive : t1 ≤ i.expiry) (hg : mapGet c k = some i) : mapGet (run c ops) k = some i := by
  induction ops generalizing c with
  | nil => exact hg
  | cons o ops ih =>
    show mapGet (run (step c o) ops) k = some i
    exact ih (step c o) (WF_step c o hwf)
      (fun o1 h1 => hops o1 (List.mem_cons_of_mem _ h1))
      (fun o1 h1 => ht o1 (List.mem_cons_of_mem _ h1))
      (step_keeps_entry c o hwf k i t1 (hops o (List.mem_cons_self _ _))
        (ht o (List.mem_cons_self _ _)) hlive hg)

theorem run_no_new_entry {K V : Type} [DecidableEq K] [Inhabited V]
    (ops : List (Int × Op K V)) (c : Cache K V) (hwf : WF c) (k : K)
    (hops : ∀ o ∈ ops, o.2.touches k = false) :
    mapGet (run c ops) k = none ∨ mapGet (run c ops) k = mapGet c k := by
  induction ops generalizing c with
  | nil => exact Or.inr rfl
  | cons o ops ih =>
    show mapGet (run (step c o) ops) k = none ∨ mapGet (run (step c o) ops) k = mapGet c k
    rcases ih (step c o) (WF_step c o hwf)
      (fun o1 h1 => hops o1 (List.mem_cons_of_mem _ h1)) with h | h
    · exact Or.inl h
    · rcases step_no_new_entry c o hwf k (hops o (List.mem_cons_self _ _)) with h2 | h2
      · exact Or.inl (h.trans h2)
      · exact Or.inr (h.trans h2)

/-! ## The contract of the cache -/

/-- C1 (TTL correctness): after `Set(k, v, d)` at time `t` on any table, followed by any
operations (reaper sweeps included) none of which is a `Set`, `Remove` or `Clear` touching
`k`, a `Get(k)` at a time `t1` not after `t + d` (the operations in between having run no
later than `t1`) returns `(v, true)`, and a `Get(k)` at a time strictly after `t + d`
reports `found = false`. -/
theorem ttl_correctness {K V : Type} [DecidableEq K] [Inhabited V] (c : Cache K V)
    (hwf : WF c) (k : K) (v : V) (d t : Int) (ops : List (Int × Op K V))
    (hops : ∀ o ∈ ops, o.2.touches k = false) (t1 : Int) :
    ((∀ o ∈ ops, o.1 ≤ t1) → t1 ≤ t + d →
        (Get t1 (run (Set t c k v d) ops) k).1 = (v, true))
      ∧ (t + d < t1 → (Get t1 (run (Set t c k v d) ops) k).1.2 = false) := by
  have hwf1 : WF (Set t c k v d) := WF_mapSet c k _ hwf
  have hset : mapGet (Set t c k v d) k = some { value := v, expiry := t + d } :=
    mapGet_mapSet_self c k _
  constructor
  · intro ht hlive
    have hg := run_keeps_entry ops (Set t c k v d) hwf1 k { value := v, expiry := t + d } t1
      hops ht hlive hset
    have hnx : ¬ (t + d < t1) := not_lt.2 hlive
    simp [Get, hg, item.isExpired, hnx]
  · intro hdead
    rcases run_no_new_entry ops (Set t c k v d) hwf1 k hops with hg | hg
    · simp [Get, hg]
    · rw [hset] at hg
      simp [Get, hg, item.isExpired, hdead]

/-- Witness of C1: `Set("a", 5, 10)` at time 0, then a sweep, a `Get("a")` and a `Set("b")`;
`Get("a")` at time 7 finds 5 and at time 11 finds nothing. -/
theorem ttl_correctness_witness :
    (Get 7 (run (Set 0 (New : Cache String Nat) "a" 5 10)
        [(3, Op.sweep), (4, Op.get "a"), (4, Op.set "b" 1 1)]) "a").1 = (5, true)
      ∧ (Get 11 (run (Set 0 (New : Cache String Nat) "a" 5 10)
        [(3, Op.sweep), (4, Op.get "a"), (4, Op.set "b" 1 1)]) "a").1.2 = false :=
  ⟨(ttl_correctness (New : Cache String Nat) (by decide) "a" 5 10 0
      [(3, Op.sweep), (4, Op.get "a"), (4, Op.set "b" 1 1)] (by decide) 7).1
      (by decide) (by decide),
   (ttl_correctness (New : Cache String Nat) (by decide) "a" 5 10 0
      [(3, Op.sweep), (4, Op.get "a"), (4, Op.set "b" 1 1)] (by decide) 11).2 (by decide)⟩

/-- C8, as stated, fails: after `Set("a", 5, 10)` at time 0, `Get("a")` at time 11 reports
`found = false` and returns the stored value 5, not the zero value 0. -/
theorem get_expired_value_not_zero :
    (Get 11 (Set 0 (New : Cache String Nat) "a" 5 10) "a").1.2 = false
      ∧ (Get 11 (Set 0 (New : Cache String Nat) "a" 5 10) "a").1.1 = 5
      ∧ (Get 11 (Set 0 (New : Cache String Nat) "a" 5 10) "a").1.1 ≠ (default : Nat) := by
  decide

/-- C8, amended: whenever `Get(key)` reports `found = false`, either the key is absent and
the returned value is the zero value, or its entry has expired (expiry strictly before the
clock reading) and the returned value is the value stored in that entry. -/
theorem get_not_found_value {K V : Type} [DecidableEq K] [Inhabited V] (now : Int)
    (c : Cache K V) (key : K) (h : (Get now c key).1.2 = false) :
    (mapGet c key = none ∧ (Get now c key).1.1 = default)
      ∨ (∃ i, mapGet c key = some i ∧ i.expiry < now ∧ (Get now c key).1.1 = i.value) := by
  cases hg : mapGet c key with
  | none =>
    left
    simp [Get, hg, zeroItem]
  | some i =>
    right
    refine ⟨i, rfl, ?_⟩
    by_cases hx : i.expiry < now
    · simp [Get, hg, item.isExpired, hx]
    · simp [Get, hg, item.isExpired, hx] at h

/-- Witness of the amended C8, at the expired entry of the scenario and at an absent key. -/
theorem get_not_found_value_witness :
    ((mapGet (Set 0 (New : Cache String Nat) "a" 5 10) "a" = none
        ∧ (Get 11 (Set 0 (New : Cache String Nat) "a" 5 10) "a").1.1 = default)
      ∨ (∃ i, mapGet (Set 0 (New : Cache String Nat) "a" 5 10) "a" = some i ∧ i.expiry < 11
        ∧ (Get 11 (Set 0 (New : Cache String Nat) "a" 5 10) "a").1.1 = i.value))
    ∧ (Get 11 (Set 0 (New : Cache String Nat) "a" 5 10) "a").1.2 = false :=
  ⟨get_not_found_value 11 (Set 0 (New : Cache String Nat) "a" 5 10) "a" (by decide),
   by decide⟩

/-- C10 (reaper sweep): one reaper cycle at time `t` leaves exactly the original table
restricted to the entries that are not expired at `t` (expiry not strictly before `t`):
every expired entry is gone, every other entry stays under its key with its value and
expiry, and no key appears. -/
theorem reaper_sweep {K V : Type} [DecidableEq K] (t : Int) (c : Cache K V) (hwf : WF c) :
    reaperCycle t c = c.filter (fun e => decide (¬ e.2.expiry < t))
      ∧ (∀ k i, mapGet c k = some i → i.expiry < t → mapGet (reaperCycle t c) k = none)
      ∧ (∀ k i, mapGet c k = some i → ¬ i.expiry < t → mapGet (reaperCycle t c) k = some i)
      ∧ (∀ k, mapGet c k = none → mapGet (reaperCycle t c) k = none) := by
  have heq : reaperCycle t c = c.filter (fun e => decide (¬ e.2.expiry < t)) := by
    rw [reaperCycle_eq_filter t c hwf]
    apply List.filter_congr
    intro e _
    by_cases hx : e.2.expiry < t
    · simp [item.isExpired, hx]
    · simp [item.isExpired, hx]
  refine ⟨heq, ?_, ?_, ?_⟩
  · intro k i hg hx
    rw [heq, mapGet_filter c hwf, hg]
    simp [Option.filter, hx]
  · intro k i hg hx
    rw [heq, mapGet_filter c hwf, hg]
    simp [Option.filter, hx]
  · intro k hg
    rw [heq, mapGet_filter c hwf, hg]
    rfl

/-- Witness of C10: a sweep at time 10 of a table holding one expired and two live entries
(one of them expiring exactly at 10). -/
theorem reaper_sweep_witness :
    WF ([("a", { value := 1, expiry := 5 }), ("b", { value := 2, expiry := 20 }),
        ("c", { value := 3, expiry := 10 })] : Cache String Nat)
      ∧ reaperCycle 10 ([("a", { value := 1, expiry := 5 }), ("b", { value := 2, expiry := 20 }),
        ("c", { value := 3, expiry := 10 })] : Cache String Nat)
        = [("b", { value := 2, expiry := 20 }), ("c", { value := 3, expiry := 10 })] :=
  ⟨by decide,
   (reaper_sweep 10 ([("a", { value := 1, expiry := 5 }), ("b", { value := 2, expiry := 20 }),
      ("c", { value := 3, expiry := 10 })] : Cache String Nat) (by decide)).1.trans
      (by decide)⟩

end cache

namespace proxy

open cache

/-! ## The price-triggered broadcast as list operations -/

theorem OnGasPriceChangeLoop_spec (gasPrice : Int) (snap : List (String × Transaction))
    (p : Proxy) :
    (OnGasPriceChangeLoop gasPrice snap p).sent
        = p.sent ++ (snap.filter (fun s => decide (s.2.gasPrice ≥ gasPrice))).map Prod.snd
      ∧ (OnGasPriceChangeLoop gasPrice snap p).txCache
        = p.txCache.filter (fun e =>
            !(snap.any (fun s => decide (s.2.gasPrice ≥ gasPrice) && decide (s.1 = e.1)))) := by
  induction snap generalizing p with
  | nil => simp [OnGasPriceChangeLoop]
  | cons s snap ih =>
    obtain ⟨key, tx⟩ := s
    by_cases hq : tx.gasPrice ≥ gasPrice
    · simp only [OnGasPriceChangeLoop, hq, if_true]
      obtain ⟨h1, h2⟩ := ih
        { p with sent := p.sent ++ [tx], txCache := Remove p.txCache key }
      rw [h1, h2]
      constructor
      · simp [List.filter_cons, hq]
      · simp only [Remove, mapDelete, List.filter_filter]
        apply List.filter_congr
        intro e _
        by_cases hk : key = e.1
        · simp [hq, hk]
        · have hk2 : ¬ e.1 = key := fun h => hk h.symm
          simp [hq, hk, hk2]
    · simp only [OnGasPriceChangeLoop, hq, if_false]
      obtain ⟨h1, h2⟩ := ih p
      rw [h1, h2]
      constructor
      · simp [List.filter_cons, hq]
      · apply List.filter_congr
        intro e _
        simp [hq]

theorem OnGasPriceChange_sent (p : Proxy) (gasPrice : Int) (hwf : WF p.txCache) :
    (OnGasPriceChange p gasPrice).sent
      = p.sent ++ (p.txCache.filter (fun e => decide (e.2.value.gasPrice ≥ gasPrice))).map
          (fun e => e.2.value) := by
  unfold OnGasPriceChange
  rw [(OnGasPriceChangeLoop_spec gasPrice (Values p.txCache) p).1, Values_eq_map p.txCache hwf,
    List.filter_map, List.map_map]
  rfl

theorem OnGasPriceChange_txCache (p : Proxy) (gasPrice : Int) (hwf : WF p.txCache) :
    (OnGasPriceChange p gasPrice).txCache
      = p.txCache.filter (fun e => decide (e.2.value.gasPrice < gasPrice)) := by
  unfold OnGasPriceChange
  rw [(OnGasPriceChangeLoop_spec gasPrice (Values p.txCache) p).2, Values_eq_map p.txCache hwf]
  apply List.filter_congr
  intro e he
  have hany : (List.map (fun e => (e.1, e.2.value)) p.txCache).any
      (fun s => decide (s.2.gasPrice ≥ gasPrice) && decide (s.1 = e.1))
      = decide (e.2.value.gasPrice ≥ gasPrice) := by
    rw [Bool.eq_iff_iff, List.any_eq_true]
    constructor
    · rintro ⟨s, hs, h⟩
      obtain ⟨e1, he1, rfl⟩ := List.mem_map.1 hs
      simp only [Bool.and_eq_true, decide_eq_true_eq] at h
      rw [← WF_key_unique p.txCache hwf e1 e he1 he h.2]
      simpa using h.1
    · intro h
      exact ⟨(e.1, e.2.value), List.mem_map.2 ⟨e, he, rfl⟩, by simpa using h⟩
  rw [hany]
  by_cases hq : e.2.value.gasPrice < gasPrice
  · simp [hq]
  · simp [hq, not_lt.1 hq]

theorem count_broadcast (c : Cache String Transaction) (gasPrice : Int) (tx : Transaction) :
    List.count tx ((c.filter (fun e => decide (e.2.value.gasPrice ≥ gasPrice))).map
        (fun e => e.2.value))
      = if tx.gasPrice ≥ gasPrice then (c.filter (fun e => decide (e.2.value = tx))).length
        else 0 := by
  induction c with
  | nil => simp
  | cons e c ih =>
    by_cases hq : e.2.value.gasPrice ≥ gasPrice
    · by_cases he : e.2.value = tx
      · have hq2 : tx.gasPrice ≥ gasPrice := he ▸ hq
        simp only [hq2, if_true] at ih
        simp [List.filter_cons, hq, he, hq2, ih]
      · simp only [List.filter_cons, hq, he, decide_True, decide_False, if_true,
          Bool.false_eq_true, if_false, List.map_cons]
        rw [List.count_cons_of_ne (fun h => he h.symm), ih]
    · by_cases he : e.2.value = tx
      · have hq2 : ¬ tx.gasPrice ≥ gasPrice := he ▸ hq
        simp only [hq2, if_false] at ih
        simp [List.filter_cons, hq, hq2, ih]
      · simp only [List.filter_cons, hq, he, decide_False, Bool.false_eq_true, if_false]
        exact ih

/-! ## The contract of the scheduler: price-triggered broadcast -/

/-- C2 (threshold correctness): one call `OnGasPriceChange(p)` passes to `SendTransaction`
exactly the transactions of the stored entries whose declared gas price is at least `p`,
one call per such entry (equality counts); a transaction whose declared gas price is below
`p` is passed in no call. -/
theorem threshold_correctness (p : Proxy) (gasPrice : Int) (hwf : WF p.txCache) :
    (OnGasPriceChange p gasPrice).sent
        = p.sent ++ (p.txCache.filter (fun e => decide (e.2.value.gasPrice ≥ gasPrice))).map
            (fun e => e.2.value)
      ∧ (∀ tx : Transaction, tx.gasPrice ≥ gasPrice →
          List.count tx (OnGasPriceChange p gasPrice).sent
            = List.count tx p.sent + (p.txCache.filter (fun e => decide (e.2.value = tx))).length)
      ∧ (∀ tx : Transaction, tx.gasPrice < gasPrice →
          List.count tx (OnGasPriceChange p gasPrice).sent = List.count tx p.sent) := by
  have hs := OnGasPriceChange_sent p gasPrice hwf
  refine ⟨hs, ?_, ?_⟩
  · intro tx htx
    rw [hs, List.count_append, count_broadcast, if_pos htx]
  · intro tx htx
    rw [hs, List.count_append, count_broadcast, if_neg (not_le.2 htx), Nat.add_zero]

/-- Witness of C2: with stored prices 100, 99 and 101 and current price 100, the entries
priced 100 and 101 are broadcast, once each. -/
theorem threshold_correctness_witness :
    WF samplePending
      ∧ (OnGasPriceChange (NewProxy okClient samplePending 1000) 100).sent
        = [{ nonce := 1, gasPrice := 100, payload := 0 },
           { nonce := 3, gasPrice := 101, payload := 0 }] :=
  ⟨by decide,
   (threshold_correctness (NewProxy okClient samplePending 1000) 100 (by decide)).1.trans
     (by decide)⟩

/-- C6 (cache state after a price sample): if every broadcast attempted during
`OnGasPriceChange(p)` succeeds, the cache afterwards is exactly the entries whose declared
gas price is strictly below `p`, each under its key with its transaction and expiry; every
entry with declared gas price at least `p` is gone. -/
theorem cache_after_price_change (p : Proxy) (gasPrice : Int) (hwf : WF p.txCache)
    (_hsend : ∀ e ∈ p.txCache, e.2.value.gasPrice ≥ gasPrice →
      p.ethClient.SendTransaction e.2.value = none) :
    (OnGasPriceChange p gasPrice).txCache
        = p.txCache.filter (fun e => decide (e.2.value.gasPrice < gasPrice))
      ∧ (∀ k i, mapGet p.txCache k = some i → i.value.gasPrice < gasPrice →
          mapGet (OnGasPriceChange p gasPrice).txCache k = some i)
      ∧ (∀ k i, mapGet p.txCache k = some i → i.value.gasPrice ≥ gasPrice →
          mapGet (OnGasPriceChange p gasPrice).txCache k = none)
      ∧ (∀ k, mapGet p.txCache k = none →
          mapGet (OnGasPriceChange p gasPrice).txCache k = none) := by
  have hc := OnGasPriceChange_txCache p gasPrice hwf
  refine ⟨hc, ?_, ?_, ?_⟩
  · intro k i hg hq
    rw [hc, mapGet_filter p.txCache hwf, hg]
    simp [Option.filter, hq]
  · intro k i hg hq
    rw [hc, mapGet_filter p.txCache hwf, hg]
    simp [Option.filter, not_lt.2 hq]
  · intro k hg
    rw [hc, mapGet_filter p.txCache hwf, hg]
    rfl

/-- Witness of C6: with stored prices 100, 99 and 101, a succeeding broadcaster and current
price 100, only the entry priced 99 stays. -/
theorem cache_after_price_change_witness :
    WF samplePending
      ∧ (OnGasPriceChange (NewProxy okClient samplePending 1000) 100).txCache
        = [("0xDEF|2", { value := { nonce := 2, gasPrice := 99, payload := 0 }, expiry := 1000 })] :=
  ⟨by decide,
   (cache_after_price_change (NewProxy okClient samplePending 1000) 100 (by decide)
     (fun _ _ _ => rfl)).1.trans (by decide)⟩

/-- C3, on the code: with a broadcaster whose `SendTransaction` returns an error, the call
`OnGasPriceChange(100)` on a cache holding one transaction priced 100 under `0xABC|1` makes
the broadcast attempt and then removes the entry: the cache no longer holds it. -/
theorem failed_broadcast_entry_removed :
    failingClient.SendTransaction tx100 = some "connection refused"
      ∧ mapGet (NewProxy failingClient [("0xABC|1", { value := tx100, expiry := 1000 })]
          1000).txCache "0xABC|1" = some { value := tx100, expiry := 1000 }
      ∧ (OnGasPriceChange (NewProxy failingClient
          [("0xABC|1", { value := tx100, expiry := 1000 })] 1000) 100).sent = [tx100]
      ∧ mapGet (OnGasPriceChange (NewProxy failingClient
          [("0xABC|1", { value := tx100, expiry := 1000 })] 1000) 100).txCache "0xABC|1"
        = none := by
  decide

/-- C7, on the code: a transaction priced 100 is scheduled at time 1 with `maxWaitTime` 10
(expiry 11); the reaper sweeps at times 5 and 10 leave it in place; at time 12 a `Get` of its
key reports not-found, yet `OnGasPriceChange(50)` on the same cache state broadcasts it. -/
theorem expired_entry_broadcast :
    reaperCycle 10 (reaperCycle 5
        (scheduleTransaction (NewProxy okClient New 10) 1 1 tx100 "0xABC").2.txCache)
      = [("0xABC|1", { value := tx100, expiry := 11 })]
    ∧ (Get 12 ([("0xABC|1", { value := tx100, expiry := 11 })] : Cache String Transaction)
        "0xABC|1").1.2 = false
    ∧ (OnGasPriceChange (NewProxy okClient [("0xABC|1", { value := tx100, expiry := 11 })] 10)
        50).sent = [tx100] := by
  decide

/-! ## The schedule key -/

theorem digitChar_spec (d : Nat) (h : d < 10) :
    (Nat.digitChar d).toNat - 48 = d ∧ Nat.digitChar d ≠ '|' := by
  interval_cases d <;> decide

theorem digitsVal_append (l : List Char) (c : Char) :
    digitsVal (l ++ [c]) = 10 * digitsVal l + (c.toNat - 48) := by
  simp [digitsVal, List.foldl_append]

theorem toDigitsCore_spec (fuel n : Nat) (ds : List Char) (h : n < fuel) :
    ∃ l, Nat.toDigitsCore 10 fuel n ds = l ++ ds ∧ digitsVal l = n ∧ ∀ c ∈ l, c ≠ '|' := by
  induction fuel generalizing n ds with
  | zero => exact absurd h (Nat.not_lt_zero n)
  | succ fuel ih =>
    have hd := digitChar_spec (n % 10) (Nat.mod_lt n (by decide))
    by_cases h0 : n / 10 = 0
    · refine ⟨[Nat.digitChar (n % 10)], ?_, ?_, ?_⟩
      · simp [Nat.toDigitsCore, h0]
      · have hn : n % 10 = n := Nat.mod_eq_of_lt (by omega)
        have hv : digitsVal [Nat.digitChar (n % 10)] = (Nat.digitChar (n % 10)).toNat - 48 := by
          simp [digitsVal]
        rw [hv, hd.1, hn]
      · intro c hc
        rw [List.mem_singleton] at hc
        rw [hc]
        exact hd.2
    · obtain ⟨l, hl, hv, hc⟩ := ih (n / 10) (Nat.digitChar (n % 10) :: ds) (by omega)
      refine ⟨l ++ [Nat.digitChar (n % 10)], ?_, ?_, ?_⟩
      · simp [Nat.toDigitsCore, h0, hl]
      · rw [digitsVal_append, hv, hd.1]
        omega
      · intro c hmem
        rcases List.mem_append.1 hmem with hm | hm
        · exact hc c hm
        · rw [List.mem_singleton] at hm
          rw [hm]
          exact hd.2

theorem repr_spec (n : Nat) :
    digitsVal (Nat.repr n).data = n ∧ ∀ c ∈ (Nat.repr n).data, c ≠ '|' := by
  obtain ⟨l, hl, hv, hc⟩ := toDigitsCore_spec (n + 1) n [] (Nat.lt_succ_self n)
  have hdata : (Nat.repr n).data = l := by
    simp [Nat.repr, Nat.toDigits, hl, List.asString]
  rw [hdata]
  exact ⟨hv, hc⟩

theorem split_at_last {α : Type} (a : α) (l1 l2 r1 r2 : List α)
    (h : l1 ++ a :: r1 = l2 ++ a :: r2) (h1 : a ∉ r1) (h2 : a ∉ r2) : l1 = l2 ∧ r1 = r2 := by
  rcases List.append_eq_append_iff.1 h with ⟨m, hm, hr⟩ | ⟨m, hm, hr⟩
  · cases m with
    | nil =>
      simp only [List.append_nil, List.nil_append, List.cons.injEq, true_and] at hm hr
      exact ⟨hm.symm, hr⟩
    | cons b m =>
      simp only [List.cons_append, List.cons.injEq] at hr
      exact absurd (hr.2 ▸ List.mem_append_right m (List.mem_cons_self a r2)) h1
  · cases m with
    | nil =>
      simp only [List.append_nil, List.nil_append, List.cons.injEq, true_and] at hm hr
      exact ⟨hm, hr.symm⟩
    | cons b m =>
      simp only [List.cons_append, List.cons.injEq] at hr
      exact absurd (hr.2 ▸ List.mem_append_right m (List.mem_cons_self a r1)) h2

theorem scheduleID_data (s : String) (n : Nat) :
    (scheduleID s n).data = s.data ++ '|' :: (Nat.repr n).data := by
  simp [scheduleID, String.data_append]

theorem scheduleID_inj (s1 s2 : String) (n1 n2 : Nat)
    (h : scheduleID s1 n1 = scheduleID s2 n2) : s1 = s2 ∧ n1 = n2 := by
  have hd : (scheduleID s1 n1).data = (scheduleID s2 n2).data := by rw [h]
  rw [scheduleID_data, scheduleID_data] at hd
  obtain ⟨hs, hn⟩ := split_at_last '|' _ _ _ _ hd
    (fun hm => (repr_spec n1).2 _ hm rfl) (fun hm => (repr_spec n2).2 _ hm rfl)
  refine ⟨String.ext hs, ?_⟩
  rw [← (repr_spec n1).1, ← (repr_spec n2).1, hn]

/-! ## The scheduling policy -/

theorem scheduleTransaction_no_error (p : Proxy) (nowGet nowSet : Int) (tx : Transaction)
    (senderAcc : String) : (scheduleTransaction p nowGet nowSet tx senderAcc).1 = none := by
  unfold scheduleTransaction
  simp only []
  split <;> rfl

theorem scheduleTransaction_sent (p : Proxy) (nowGet nowSet : Int) (tx : Transaction)
    (senderAcc : String) : (scheduleTransaction p nowGet nowSet tx senderAcc).2.sent = p.sent := by
  unfold scheduleTransaction
  simp only []
  split <;> rfl

theorem schedule_absent (p : Proxy) (nowGet nowSet : Int) (tx : Transaction)
    (senderAcc : String) (h : mapGet p.txCache (scheduleID senderAcc tx.nonce) = none) :
    (scheduleTransaction p nowGet nowSet tx senderAcc).2
      = { p with
          txCache := mapSet p.txCache (scheduleID senderAcc tx.nonce)
            (item.mk tx (nowSet + p.maxWaitTime)) } := by
  simp [scheduleTransaction, Get, h, cache.Set]

theorem schedule_live (p : Proxy) (nowGet nowSet : Int) (tx : Transaction)
    (senderAcc : String) (i : item Transaction)
    (h : mapGet p.txCache (scheduleID senderAcc tx.nonce) = some i) (hx : ¬ i.expiry < nowGet) :
    (scheduleTransaction p nowGet nowSet tx senderAcc).2
      = { p with txCache := mapDelete p.txCache (scheduleID senderAcc tx.nonce) } := by
  simp [scheduleTransaction, Get, h, item.isExpired, hx, Remove]

theorem schedule_expired (p : Proxy) (nowGet nowSet : Int) (tx : Transaction)
    (senderAcc : String) (i : item Transaction)
    (h : mapGet p.txCache (scheduleID senderAcc tx.nonce) = some i) (hx : i.expiry < nowGet) :
    (scheduleTransaction p nowGet nowSet tx senderAcc).2
      = { p with
          txCache := mapSet (mapDelete p.txCache (scheduleID senderAcc tx.nonce))
            (scheduleID senderAcc tx.nonce) (item.mk tx (nowSet + p.maxWaitTime)) } := by
  simp [scheduleTransaction, Get, h, item.isExpired, hx, cache.Set]

theorem count_key_mapDelete {T : Type} (m : List (String × T)) (k : String) :
    List.count k ((mapDelete m k).map Prod.fst) = 0 := by
  rw [List.count_eq_zero]
  intro hmem
  obtain ⟨e, he, hk⟩ := List.mem_map.1 hmem
  have := (List.mem_filter.1 he).2
  simp [hk] at this

theorem count_key_mapSet {T : Type} (m : List (String × T)) (k : String) (x : T) :
    List.count k ((mapSet m k x).map Prod.fst) = 1 := by
  unfold mapSet
  rw [List.map_append, List.count_append, count_key_mapDelete]
  simp

theorem scheduleTransaction_frame (p : Proxy) (nowGet nowSet : Int) (tx : Transaction)
    (senderAcc : String) (k : String) (hk : k ≠ scheduleID senderAcc tx.nonce) :
    mapGet (scheduleTransaction p nowGet nowSet tx senderAcc).2.txCache k = mapGet p.txCache k := by
  cases hg : mapGet p.txCache (scheduleID senderAcc tx.nonce) with
  | none =>
    rw [schedule_absent p nowGet nowSet tx senderAcc hg]
    exact mapGet_mapSet_ne _ _ k _ hk
  | some i =>
    by_cases hx : i.expiry < nowGet
    · rw [schedule_expired p nowGet nowSet tx senderAcc i hg hx]
      exact (mapGet_mapSet_ne _ _ k _ hk).trans (mapGet_mapDelete_ne _ _ k hk)
    · rw [schedule_live p nowGet nowSet tx senderAcc i hg hx]
      exact mapGet_mapDelete_ne _ _ k hk

/-- C9 (the schedule key identifies the slot): the keys of two (sender, nonce) pairs are
equal exactly when the senders and the nonces are equal; hence scheduling a transaction for
one (sender, nonce) leaves the entry stored for any other (sender, nonce) as it was. -/
theorem schedule_key_unique (s1 s2 : String) (n1 n2 : Nat) :
    (scheduleID s1 n1 = scheduleID s2 n2 ↔ s1 = s2 ∧ n1 = n2)
      ∧ (∀ (p : Proxy) (nowGet nowSet : Int) (tx : Transaction),
          tx.nonce = n1 → ¬ (s1 = s2 ∧ n1 = n2) →
          mapGet (scheduleTransaction p nowGet nowSet tx s1).2.txCache (scheduleID s2 n2)
            = mapGet p.txCache (scheduleID s2 n2)) := by
  constructor
  · constructor
    · exact scheduleID_inj s1 s2 n1 n2
    · rintro ⟨rfl, rfl⟩
      rfl
  · intro p nowGet nowSet tx hn hne
    apply scheduleTransaction_frame
    intro heq
    rw [hn] at heq
    exact hne (scheduleID_inj s1 s2 n1 n2 heq.symm)

/-- Witness of C9: scheduling nonce 11 of sender `0xA` leaves the entry of nonce 1 of sender
`0xA1` in place (the keys `0xA|11` and `0xA1|1` differ). -/
theorem schedule_key_unique_witness :
    mapGet (scheduleTransaction
        (NewProxy okClient [("0xA1|1", { value := tx100, expiry := 1000 })] 1000) 5 5
        { nonce := 11, gasPrice := 7, payload := 0 } "0xA").2.txCache (scheduleID "0xA1" 1)
      = mapGet (NewProxy okClient [("0xA1|1", { value := tx100, expiry := 1000 })] 1000).txCache
          (scheduleID "0xA1" 1) :=
  (schedule_key_unique "0xA" "0xA1" 11 1).2
    (NewProxy okClient [("0xA1|1", { value := tx100, expiry := 1000 })] 1000) 5 5
    { nonce := 11, gasPrice := 7, payload := 0 } rfl (by decide)

/-- C4, as stated, fails: two `scheduleTransaction` calls in succession for the same sender
and nonce leave one entry (the second transaction), not zero, when the first entry has
expired at the second call: with `maxWaitTime` 0 and the second call one tick after the
first, and with `maxWaitTime` 300 and the second call at time 301. -/
theorem schedule_twice_after_expiry :
    List.count "0xABC|1" ((scheduleTransaction
        (scheduleTransaction (NewProxy okClient New 0) 0 0 tx100 "0xABC").2 1 1
        { nonce := 1, gasPrice := 100, payload := 9 } "0xABC").2.txCache.map Prod.fst) = 1
      ∧ mapGet (scheduleTransaction
        (scheduleTransaction (NewProxy okClient New 0) 0 0 tx100 "0xABC").2 1 1
        { nonce := 1, gasPrice := 100, payload := 9 } "0xABC").2.txCache "0xABC|1"
        = some { value := { nonce := 1, gasPrice := 100, payload := 9 }, expiry := 1 }
      ∧ List.count "0xABC|1" ((scheduleTransaction
        (scheduleTransaction (NewProxy okClient New 300) 0 0 tx100 "0xABC").2 301 301
        tx100 "0xABC").2.txCache.map Prod.fst) = 1 := by
  decide

/-- C4, amended: starting from a cache with no entry for the key `sender|nonce`, one
`scheduleTransaction(tx1, sender)` call leaves exactly one entry for that key, holding `tx1`;
a second call `scheduleTransaction(tx2, sender)` with the same nonce, whatever its payload,
made in succession (directly on the state the first call left) leaves zero entries for that
key when its lookup happens no later than `maxWaitTime` after the first insertion, and
leaves exactly one entry, holding `tx2`, when its lookup happens strictly later (the first
entry having expired); both calls return no error. -/
theorem schedule_toggle (p : Proxy) (sender : String) (tx1 tx2 : Transaction)
    (g1 s1 g2 s2 : Int) (hn : tx2.nonce = tx1.nonce)
    (habs : mapGet p.txCache (scheduleID sender tx1.nonce) = none) :
    (scheduleTransaction p g1 s1 tx1 sender).1 = none
      ∧ List.count (scheduleID sender tx1.nonce)
          ((scheduleTransaction p g1 s1 tx1 sender).2.txCache.map Prod.fst) = 1
      ∧ mapGet (scheduleTransaction p g1 s1 tx1 sender).2.txCache (scheduleID sender tx1.nonce)
          = some (item.mk tx1 (s1 + p.maxWaitTime))
      ∧ (scheduleTransaction (scheduleTransaction p g1 s1 tx1 sender).2 g2 s2 tx2 sender).1 = none
      ∧ (g2 ≤ s1 + p.maxWaitTime →
          List.count (scheduleID sender tx1.nonce)
            ((scheduleTransaction (scheduleTransaction p g1 s1 tx1 sender).2 g2 s2 tx2
              sender).2.txCache.map Prod.fst) = 0)
      ∧ (s1 + p.maxWaitTime < g2 →
          List.count (scheduleID sender tx1.nonce)
            ((scheduleTransaction (scheduleTransaction p g1 s1 tx1 sender).2 g2 s2 tx2
              sender).2.txCache.map Prod.fst) = 1
          ∧ mapGet (scheduleTransaction (scheduleTransaction p g1 s1 tx1 sender).2 g2 s2 tx2
              sender).2.txCache (scheduleID sender tx1.nonce)
            = some (item.mk tx2 (s2 + p.maxWaitTime))) := by
  have h1 := schedule_absent p g1 s1 tx1 sender habs
  have hg1 : mapGet (scheduleTransaction p g1 s1 tx1 sender).2.txCache
      (scheduleID sender tx2.nonce) = some (item.mk tx1 (s1 + p.maxWaitTime)) := by
    rw [h1, hn]
    exact mapGet_mapSet_self _ _ _
  have hmw : (scheduleTransaction p g1 s1 tx1 sender).2.maxWaitTime = p.maxWaitTime := by
    rw [h1]
  refine ⟨scheduleTransaction_no_error _ _ _ _ _, ?_, ?_, scheduleTransaction_no_error _ _ _ _ _,
    ?_, ?_⟩
  · rw [h1]
    exact count_key_mapSet _ _ _
  · rw [← hn]
    exact hg1
  · intro hlive
    rw [schedule_live _ g2 s2 tx2 sender _ hg1 (not_lt.2 hlive), hn]
    exact count_key_mapDelete _ _
  · intro hdead
    rw [schedule_expired _ g2 s2 tx2 sender _ hg1 hdead, hn, hmw]
    exact ⟨count_key_mapSet _ _ _, mapGet_mapSet_self _ _ _⟩

/-- Witness of the amended C4: with `maxWaitTime` 300, a second call made in succession at
time 200 with another payload cancels the entry scheduled at time 0. -/
theorem schedule_toggle_witness :
    mapGet (NewProxy okClient New 300).txCache (scheduleID "0xABC" tx100.nonce) = none
      ∧ List.count (scheduleID "0xABC" tx100.nonce)
          ((scheduleTransaction (scheduleTransaction (NewProxy okClient New 300) 0 0 tx100
            "0xABC").2 200 200 { nonce := 1, gasPrice := 100, payload := 9 }
            "0xABC").2.txCache.map Prod.fst) = 0 :=
  ⟨by decide,
   (schedule_toggle (NewProxy okClient New 300) "0xABC" tx100
      { nonce := 1, gasPrice := 100, payload := 9 } 0 0 200 200 rfl (by decide)).2.2.2.2.1
      (by decide)⟩

/-- C5 (result of `SendRawTransaction`): when decoding and sender recovery both succeed it
returns the hash of the decoded transaction and no error, whatever the cache held (so both
when the transaction is scheduled and when it cancels a pending one), and broadcasts
nothing; when decoding fails, or sender recovery fails, it returns that error with the zero
hash and leaves the proxy (cache and broadcasts) unchanged. -/
theorem send_raw_transaction_result (lib : EthLib) (p : Proxy) (nowGet nowSet : Int)
    (txData : String) :
    (∀ tx sender, lib.UnmarshalBinary (lib.FromHex txData) = .ok tx → lib.Sender tx = .ok sender →
        (SendRawTransaction lib p nowGet nowSet txData).1 = (lib.Hash tx, none)
          ∧ (SendRawTransaction lib p nowGet nowSet txData).2
            = (scheduleTransaction p nowGet nowSet tx (lib.Hex sender)).2
          ∧ (SendRawTransaction lib p nowGet nowSet txData).2.sent = p.sent)
      ∧ (∀ err, lib.UnmarshalBinary (lib.FromHex txData) = .error err →
        SendRawTransaction lib p nowGet nowSet txData = ((0, some err), p))
      ∧ (∀ tx err, lib.UnmarshalBinary (lib.FromHex txData) = .ok tx →
        lib.Sender tx = .error err →
        SendRawTransaction lib p nowGet nowSet txData = ((0, some err), p)) := by
  refine ⟨?_, ?_, ?_⟩
  · intro tx sender hd hs
    have hne := scheduleTransaction_no_error p nowGet nowSet tx (lib.Hex sender)
    have hsent := scheduleTransaction_sent p nowGet nowSet tx (lib.Hex sender)
    have hres : SendRawTransaction lib p nowGet nowSet txData
        = ((lib.Hash tx, none), (scheduleTransaction p nowGet nowSet tx (lib.Hex sender)).2) := by
      cases hsched : scheduleTransaction p nowGet nowSet tx (lib.Hex sender) with
      | mk e p1 =>
        rw [hsched] at hne
        simp only at hne
        subst hne
        simp [SendRawTransaction, Decode, hd, readSenderAccount, hs, hsched]
    rw [hres]
    exact ⟨rfl, rfl, hsent⟩
  · intro err hd
    simp [SendRawTransaction, Decode, hd]
  · intro tx err hd hs
    simp [SendRawTransaction, Decode, hd, readSenderAccount, hs]

/-- Witness of C5 on the toy library: a first submission is scheduled and a second one is
cancelled, both returning the hash; an undecodable input and an input whose signer cannot
be recovered return the error with the zero hash. -/
theorem send_raw_transaction_result_witness :
    (SendRawTransaction sampleLib (NewProxy okClient New 300) 0 0 "ab").1 = (1195, none)
      ∧ (SendRawTransaction sampleLib
          (SendRawTransaction sampleLib (NewProxy okClient New 300) 0 0 "ab").2 1 1 "ab").1
        = (1195, none)
      ∧ (SendRawTransaction sampleLib (NewProxy okClient New 300) 0 0 "").1
        = (0, some "typed transaction too short")
      ∧ (SendRawTransaction sampleLib (NewProxy okClient New 300) 0 0 "abc").1
        = (0, some "invalid chain id for signer") :=
  ⟨((send_raw_transaction_result sampleLib (NewProxy okClient New 300) 0 0 "ab").1
      { nonce := 2, gasPrice := 100, payload := 195 } 7 rfl rfl).1,
   ((send_raw_transaction_result sampleLib
      (SendRawTransaction sampleLib (NewProxy okClient New 300) 0 0 "ab").2 1 1 "ab").1
      { nonce := 2, gasPrice := 100, payload := 195 } 7 rfl rfl).1,
   congrArg Prod.fst ((send_raw_transaction_result sampleLib (NewProxy okClient New 300) 0 0
      "").2.1 "typed transaction too short" rfl),
   congrArg Prod.fst ((send_raw_transaction_result sampleLib (NewProxy okClient New 300) 0 0
      "abc").2.2 { nonce := 3, gasPrice := 100, payload := 294 }
      "invalid chain id for signer" rfl rfl)⟩

end proxy
